import Mathlib

/-
Verification of the unified-llm library (Go): a Conversation-centric wrapper
around the AWS Bedrock Converse API, plus an earlier adapter-based client for
the InvokeModel API (llm/anthropic.go, llm/client.go).

The development shallowly embeds the data model (llm/types.go), the tool
argument validation (ToolDefinition.ParseArgs), the error classifier
(classifyBedrockError), the outbound translation (toConverseInput's system and
tool sections, AnthropicAdapter.BuildInvokeInput's message merge), the inbound
stop-reason mapping (mapStopReason), and Client.Send's conversation handling.
Go slices and their aliasing are modelled explicitly by a store of backing
arrays, so that non-mutation claims about Send are meaningful statements.
-/

/-- Message participant (llm/types.go, Role). -/
inductive Role where
  | system
  | user
  | assistant
  | tool
deriving DecidableEq

/-- A JSON value, as Go's encoding/json produces from raw bytes.  Go
unmarshals every JSON number into a float64; only the fact that a value is a
number is ever inspected by the code under verification, so the numeric
payload is carried as an Int. -/
inductive JVal where
  | jnull
  | jbool (b : Bool)
  | jnum (n : Int)
  | jstr (s : String)
  | jarr (elems : List JVal)
  | jobj (pairs : List (String × JVal))

/-- The raw JSON argument bytes of a tool call (json.RawMessage), abstracted
to their parse status: empty bytes, bytes that do not unmarshal into a
map of string keys to values, or the key/value pairs of the decoded object
(Go map semantics: a duplicated key keeps its last value). -/
inductive RawArgs where
  | empty
  | malformed
  | obj (pairs : List (String × JVal))

/-- llm/types.go, ToolCallData. -/
structure ToolCallData where
  id : String
  name : String
  arguments : RawArgs

/-- llm/types.go, ToolResultData. -/
structure ToolResultData where
  toolCallID : String
  content : String
  isError : Bool

/-- llm/types.go, ThinkingData. -/
structure ThinkingData where
  text : String
  signature : String

/-- llm/types.go, ContentPart: a tagged union with exactly one populated
payload per tag (image bytes abstracted to a string). -/
inductive ContentPart where
  | text (s : String)
  | image (url : String) (data : String) (mediaType : String)
  | toolCall (tc : ToolCallData)
  | toolResult (tr : ToolResultData)
  | thinking (th : ThinkingData)

/-- llm/types.go, Message. -/
structure Message where
  role : Role
  content : List ContentPart
  toolCallID : String

/-- llm/types.go, UserMessage. -/
def UserMessage (text : String) : Message :=
  ⟨Role.user, [ContentPart.text text], ""⟩

/-- llm/types.go, AssistantMessage. -/
def AssistantMessage (text : String) : Message :=
  ⟨Role.assistant, [ContentPart.text text], ""⟩

/-- llm/types.go, SystemMessage. -/
def SystemMessage (text : String) : Message :=
  ⟨Role.system, [ContentPart.text text], ""⟩

/-- llm/types.go, ToolResultMessage. -/
def ToolResultMessage (callID content : String) (isError : Bool) : Message :=
  ⟨Role.tool, [ContentPart.toolResult ⟨callID, content, isError⟩], callID⟩

/-- llm/types.go, Usage: five token counters (Go int).  Go's wrapping 64-bit
addition is associative and commutative exactly as Int addition is, and the
counters stay far below overflow, so Int is used. -/
structure Usage where
  inputTokens : Int
  outputTokens : Int
  cacheReadTokens : Int
  cacheWriteTokens : Int
  reasoningTokens : Int
deriving DecidableEq

/-- llm/types.go, Usage.Add. -/
def Usage.add (u other : Usage) : Usage :=
  ⟨u.inputTokens + other.inputTokens,
   u.outputTokens + other.outputTokens,
   u.cacheReadTokens + other.cacheReadTokens,
   u.cacheWriteTokens + other.cacheWriteTokens,
   u.reasoningTokens + other.reasoningTokens⟩

/-- The elementwise sum of a list of Usage values, as the spec words it
("conversation usage equals the elementwise sum of each turn's usage");
compared against folding Usage.add. -/
def usageSum (l : List Usage) : Usage :=
  ⟨(l.map Usage.inputTokens).sum,
   (l.map Usage.outputTokens).sum,
   (l.map Usage.cacheReadTokens).sum,
   (l.map Usage.cacheWriteTokens).sum,
   (l.map Usage.reasoningTokens).sum⟩

/-- llm/types.go, Param. -/
structure Param where
  name : String
  typ : String
  description : String
  required : Bool
deriving DecidableEq

/-- llm/types.go, newParam: desc is a variadic slice, only its head is used. -/
def newParam (name typ : String) (required : Bool) (desc : List String) : Param :=
  ⟨name, typ, desc.headD "", required⟩

/-- llm/types.go, IntegerParam. -/
def IntegerParam (name : String) (desc : List String) : Param :=
  newParam name "integer" true desc

/-- llm/types.go, OptionalIntegerParam. -/
def OptionalIntegerParam (name : String) (desc : List String) : Param :=
  newParam name "integer" false desc

/-- llm/types.go, StringParam. -/
def StringParam (name : String) (desc : List String) : Param :=
  newParam name "string" true desc

/-- llm/types.go, OptionalStringParam. -/
def OptionalStringParam (name : String) (desc : List String) : Param :=
  newParam name "string" false desc

/-- llm/types.go, NumberParam. -/
def NumberParam (name : String) (desc : List String) : Param :=
  newParam name "number" true desc

/-- llm/types.go, BoolParam. -/
def BoolParam (name : String) (desc : List String) : Param :=
  newParam name "boolean" true desc

/-- llm/types.go, OptionalBoolParam. -/
def OptionalBoolParam (name : String) (desc : List String) : Param :=
  newParam name "boolean" false desc

/-- llm/types.go, ToolDefinition.  The Go struct serialises Name, Description
and Parameters through JSON tags; params is an unexported field carrying the
declared parameter list used only by ParseArgs. -/
structure ToolDefinition where
  name : String
  description : String
  parameters : JVal
  params : List Param

/-- The JSON-schema property object for one parameter (body of NewTool). -/
def paramProp (p : Param) : JVal :=
  JVal.jobj (("type", JVal.jstr p.typ) ::
    (if p.description = "" then [] else [("description", JVal.jstr p.description)]))

/-- llm/types.go, NewTool: builds the object schema (properties keyed by
parameter name, required listing required names in declaration order) and
retains the parameter list in the unexported field. -/
def NewTool (name description : String) (params : List Param) : ToolDefinition :=
  { name := name
    description := description
    parameters := JVal.jobj
      [("type", JVal.jstr "object"),
       ("properties", JVal.jobj (params.map (fun p => (p.name, paramProp p)))),
       ("required", JVal.jarr ((params.filter (fun p => p.required)).map
         (fun p => JVal.jstr p.name)))]
    params := params }

/-- Models encoding/json Marshal followed by Unmarshal of a ToolDefinition
(as happens when a Conversation is serialised and reconstructed): the
exported, tagged fields Name, Description, Parameters round-trip; the
unexported field params has no JSON representation and comes back as its
zero value (nil). -/
def ToolDefinition.jsonRoundTrip (td : ToolDefinition) : ToolDefinition :=
  { td with params := [] }

/-- Validation failure of ToolDefinition.ParseArgs: the unmarshal error, or a
validation error naming the offending parameter (the Go code returns
fmt.Errorf values; the name and, for a mismatch, the expected type are the
data those messages carry). -/
inductive ParseErr where
  | unmarshal
  | missingRequired (name : String)
  | typeMismatch (name expected : String)
deriving DecidableEq

/-- Parsed tool-call arguments (llm/types.go, ToolCallArgs: map string to any). -/
abbrev ToolCallArgs := List (String × JVal)

/-- Go map lookup on the decoded JSON object: the last binding of a key wins,
as json.Unmarshal into a map keeps the last duplicate. -/
def argLookup (args : ToolCallArgs) (name : String) : Option JVal :=
  (args.reverse.find? (fun kv => kv.fst == name)).map (fun kv => kv.snd)

/-- The unmarshal step at the top of ParseArgs: empty raw bytes yield the
empty map, undecodable bytes fail. -/
def unmarshalArgs : RawArgs → Except ParseErr ToolCallArgs
  | RawArgs.empty => Except.ok []
  | RawArgs.malformed => Except.error ParseErr.unmarshal
  | RawArgs.obj pairs => Except.ok pairs

/-- The per-parameter validation loop of ToolDefinition.ParseArgs
(llm/types.go lines 228-250): a required parameter must be present; a present
parameter of declared type string / number-or-integer / boolean must carry a
JSON value of that runtime type; any other declared type is not checked. -/
def checkParams : List Param → ToolCallArgs → Except ParseErr Unit
  | [], _ => Except.ok ()
  | p :: rest, args =>
    match argLookup args p.name with
    | none =>
      if p.required then Except.error (ParseErr.missingRequired p.name)
      else checkParams rest args
    | some v =>
      if p.typ = "string" then
        match v with
        | JVal.jstr _ => checkParams rest args
        | _ => Except.error (ParseErr.typeMismatch p.name "string")
      else if p.typ = "number" ∨ p.typ = "integer" then
        match v with
        | JVal.jnum _ => checkParams rest args
        | _ => Except.error (ParseErr.typeMismatch p.name "number")
      else if p.typ = "boolean" then
        match v with
        | JVal.jbool _ => checkParams rest args
        | _ => Except.error (ParseErr.typeMismatch p.name "boolean")
      else checkParams rest args

/-- llm/types.go, ToolDefinition.ParseArgs: unmarshal the call's raw JSON
arguments, then validate against the declared parameter list; on success the
decoded arguments are returned (extra, undeclared keys included). -/
def ToolDefinition.ParseArgs (td : ToolDefinition) (tc : ToolCallData) :
    Except ParseErr ToolCallArgs :=
  match unmarshalArgs tc.arguments with
  | Except.error e => Except.error e
  | Except.ok args =>
    match checkParams td.params args with
    | Except.error e => Except.error e
    | Except.ok _ => Except.ok args

/-- Whether a present value passes the type check ParseArgs applies for a
declared type (mirrors the switch in llm/types.go lines 236-249). -/
def typeMatches (typ : String) (v : JVal) : Bool :=
  if typ = "string" then
    match v with
    | JVal.jstr _ => true
    | _ => false
  else if typ = "number" ∨ typ = "integer" then
    match v with
    | JVal.jnum _ => true
    | _ => false
  else if typ = "boolean" then
    match v with
    | JVal.jbool _ => true
    | _ => false
  else true

/-- One declared parameter is satisfied by the decoded arguments: present
with a matching runtime type, or absent and optional. -/
def paramAccepted (args : ToolCallArgs) (p : Param) : Bool :=
  match argLookup args p.name with
  | none => !p.required
  | some v => typeMatches p.typ v

/-- llm/types.go, ToolChoiceMode. -/
inductive ToolChoiceMode where
  | auto
  | none
  | required
  | named
deriving DecidableEq

/-- llm/types.go, ToolChoice. -/
structure ToolChoice where
  mode : ToolChoiceMode
  toolName : String
deriving DecidableEq

/-- llm/types.go, Config.  Temperature and TopP are float64 fields never
inspected by any verified operation and are omitted from the embedding. -/
structure Config where
  maxTokens : Option Int
  stopSequences : List String
  toolChoice : Option ToolChoice

/-- llm/types.go, Conversation. -/
structure Conversation where
  model : String
  system : List String
  messages : List Message
  tools : List ToolDefinition
  config : Config
  usage : Usage

/-- llm/types.go, FinishReason (a string type with five constants). -/
abbrev FinishReason := String

def FinishReasonStop : String := "stop"

def FinishReasonLength : String := "length"

def FinishReasonToolUse : String := "tool_use"

def FinishReasonContentFilter : String := "content_filter"

def FinishReasonError : String := "error"

/-- The unified finish-reason vocabulary of the spec. -/
def finishVocab : List String :=
  [FinishReasonStop, FinishReasonLength, FinishReasonToolUse,
   FinishReasonContentFilter, FinishReasonError]

/-- llm/types.go, Response (the Converse-based client's per-turn result). -/
structure Response where
  message : Message
  finishReason : FinishReason
  usage : Usage

/- ## Strings: lower-casing and substring search (strings.ToLower /
strings.Contains on the ASCII messages the classifier inspects). -/

/-- needle is an initial segment of hay. -/
def charsLeadWith : List Char → List Char → Bool
  | [], _ => true
  | _ :: _, [] => false
  | n :: ns, h :: hs => n == h && charsLeadWith ns hs

/-- hay contains needle as a contiguous segment (strings.Contains). -/
def charsHaveSeg (hay needle : List Char) : Bool :=
  match hay with
  | [] => needle.isEmpty
  | _ :: t => charsLeadWith needle hay || charsHaveSeg t needle

def strContains (s sub : String) : Bool :=
  charsHaveSeg s.toList sub.toList

/-- strings.ToLower, on the ASCII error messages the classifier matches. -/
def strLower (s : String) : String :=
  ⟨s.data.map Char.toLower⟩

/- ## Error classifier (part_004 classifyBedrockError; the identical
per-provider variant lives in llm/client.go). -/

/-- llm error taxonomy (part_005, ErrorKind). -/
inductive ErrorKind where
  | config
  | adapter
  | authentication
  | notFound
  | invalidRequest
  | rateLimit
  | server
  | contextLength
  | contentFilter
deriving DecidableEq

/-- The Bedrock exception types the classifier's first tier recognises via
errors.As. -/
inductive BedrockExc where
  | accessDenied
  | validation
  | resourceNotFound
  | throttling
  | modelTimeout
  | internalServer
  | modelError
deriving DecidableEq

/-- A transport-level failure: the Bedrock exception type errors.As finds in
the wrap chain, if any, and the err.Error() message. -/
structure BedrockErr where
  excType : Option BedrockExc
  message : String
deriving DecidableEq

/-- part_005, Error: the classified error value (Kind, Message, Cause). -/
structure LLMError where
  kind : ErrorKind
  message : String
  cause : BedrockErr
deriving DecidableEq

/-- part_004 lines 94-138, classifyBedrockError: tier 1 matches the Bedrock
exception type; tier 2 substring-matches the lower-cased message; the result
wraps the original error as Cause. -/
def classifyBedrockError (err : BedrockErr) : LLMError :=
  let msg := err.message
  let kind :=
    match err.excType with
    | some BedrockExc.accessDenied => ErrorKind.authentication
    | some BedrockExc.validation => ErrorKind.invalidRequest
    | some BedrockExc.resourceNotFound => ErrorKind.notFound
    | some BedrockExc.throttling => ErrorKind.rateLimit
    | some BedrockExc.modelTimeout => ErrorKind.server
    | some BedrockExc.internalServer => ErrorKind.server
    | some BedrockExc.modelError => ErrorKind.server
    | none =>
      let lower := strLower msg
      if strContains lower "context length" || strContains lower "too many tokens" then
        ErrorKind.contextLength
      else if strContains lower "content filter" || strContains lower "guardrail" then
        ErrorKind.contentFilter
      else ErrorKind.server
  ⟨kind, msg, err⟩

/-- The classifier's kind as the spec states it (section 4.4): tier 1, an
exact table over known backend exception identifiers; tier 2, substring
match over the lower-cased message with context_length and content_filter
families, anything unmatched being server.  Written from the spec's words,
for comparison with classifyBedrockError. -/
def classifierKindSpec (err : BedrockErr) : ErrorKind :=
  match err.excType with
  | some BedrockExc.accessDenied => ErrorKind.authentication
  | some BedrockExc.validation => ErrorKind.invalidRequest
  | some BedrockExc.resourceNotFound => ErrorKind.notFound
  | some BedrockExc.throttling => ErrorKind.rateLimit
  | some BedrockExc.modelTimeout => ErrorKind.server
  | some BedrockExc.internalServer => ErrorKind.server
  | some BedrockExc.modelError => ErrorKind.server
  | none =>
    let lower := strLower err.message
    if strContains lower "context length" || strContains lower "too many tokens" then
      ErrorKind.contextLength
    else if strContains lower "content filter" || strContains lower "guardrail" then
      ErrorKind.contentFilter
    else ErrorKind.server

/- ## Inbound stop-reason mapping (llm/converse.go, mapStopReason).
The AWS SDK's StopReason is an open string type; these are its documented
constants. -/

def stopReasonEndTurn : String := "end_turn"

def stopReasonStopSequence : String := "stop_sequence"

def stopReasonMaxTokens : String := "max_tokens"

def stopReasonModelContextWindowExceeded : String := "model_context_window_exceeded"

def stopReasonToolUse : String := "tool_use"

def stopReasonContentFiltered : String := "content_filtered"

def stopReasonGuardrailIntervened : String := "guardrail_intervened"

/-- The seven stop reasons mapStopReason's switch recognises. -/
def knownStopReasons : List String :=
  [stopReasonEndTurn, stopReasonStopSequence, stopReasonMaxTokens,
   stopReasonModelContextWindowExceeded, stopReasonToolUse,
   stopReasonContentFiltered, stopReasonGuardrailIntervened]

/-- llm/converse.go lines 226-239, mapStopReason: the switch over the SDK's
stop reason; default passes the raw string through as the FinishReason. -/
def mapStopReason (sr : String) : FinishReason :=
  if sr = stopReasonEndTurn ∨ sr = stopReasonStopSequence then FinishReasonStop
  else if sr = stopReasonMaxTokens ∨ sr = stopReasonModelContextWindowExceeded then
    FinishReasonLength
  else if sr = stopReasonToolUse then FinishReasonToolUse
  else if sr = stopReasonContentFiltered ∨ sr = stopReasonGuardrailIntervened then
    FinishReasonContentFilter
  else sr

/-- The unified value each known stop reason converges to, per the spec's
table (end-of-turn and stop-sequence to stop; truncation to length; tool
invocation to tool_use; guardrail or content filter to content_filter). -/
def stopReasonTable (sr : String) : FinishReason :=
  if sr = stopReasonEndTurn ∨ sr = stopReasonStopSequence then FinishReasonStop
  else if sr = stopReasonMaxTokens ∨ sr = stopReasonModelContextWindowExceeded then
    FinishReasonLength
  else if sr = stopReasonToolUse then FinishReasonToolUse
  else FinishReasonContentFilter

/- ## Outbound translation, Converse path (llm/converse.go, toConverseInput):
the system and tool sections, where the cache-point injection lives. -/

/-- llm/converse.go, isAnthropicModel: a model-id substring match. -/
def isAnthropicModel (model : String) : Bool :=
  strContains model "anthropic."

/-- A Converse system content block (types.SystemContentBlockMemberText or
...MemberCachePoint). -/
inductive SystemBlock where
  | text (s : String)
  | cachePoint
deriving DecidableEq

/-- A Converse tool-configuration entry (types.ToolMemberToolSpec carrying
name, optional description and the input schema, or ...MemberCachePoint). -/
inductive ToolEntry where
  | toolSpec (name : String) (description : Option String) (schema : JVal)
  | cachePoint

/-- The Converse tool-choice sentinels (types.ToolChoiceMemberAuto / Any /
Tool). -/
inductive WireToolChoice where
  | auto
  | any
  | tool (name : String)
deriving DecidableEq

/-- types.ToolConfiguration: the tool list and the optional choice. -/
structure WireToolConfig where
  tools : List ToolEntry
  toolChoice : Option WireToolChoice

/-- llm/converse.go lines 19-28: emit each system prompt as a text block;
for an Anthropic model with at least one system block, append one cache
point after the last. -/
def converseSystem (conv : Conversation) : List SystemBlock :=
  let sys := conv.system.map SystemBlock.text
  if isAnthropicModel conv.model = true ∧ 0 < sys.length then
    sys ++ [SystemBlock.cachePoint]
  else sys

/-- llm/converse.go lines 59-76: translate each declared tool into a tool
spec (description only when non-empty, schema passed through); for an
Anthropic model append one cache point after the last tool. -/
def converseToolEntries (conv : Conversation) : List ToolEntry :=
  (conv.tools.map (fun td =>
    ToolEntry.toolSpec td.name
      (if td.description = "" then none else some td.description)
      td.parameters)) ++
  (if isAnthropicModel conv.model = true then [ToolEntry.cachePoint] else [])

/-- llm/converse.go lines 56-93: no tool configuration when no tools are
declared; otherwise the entries plus the mapped tool choice — and a
tool-choice mode of none drops the whole configuration (tc = nil). -/
def converseToolConfig (conv : Conversation) : Option WireToolConfig :=
  if conv.tools.isEmpty then none
  else
    let entries := converseToolEntries conv
    match conv.config.toolChoice with
    | Option.none => some ⟨entries, none⟩
    | some tc =>
      match tc.mode with
      | ToolChoiceMode.auto => some ⟨entries, some WireToolChoice.auto⟩
      | ToolChoiceMode.required => some ⟨entries, some WireToolChoice.any⟩
      | ToolChoiceMode.named => some ⟨entries, some (WireToolChoice.tool tc.toolName)⟩
      | ToolChoiceMode.none => none

/- ## Outbound translation, Anthropic Messages path
(llm/anthropic.go, AnthropicAdapter.BuildInvokeInput): the message
translation with the strict-alternation merge. -/

/-- An anthropicContent value as translateMessage populates it. -/
inductive AnthContent where
  | text (s : String)
  | toolUse (id name : String) (input : RawArgs)
  | toolResult (toolUseID content : String)
  | thinking (text signature : String)

/-- llm/anthropic.go, anthropicMessage. -/
structure AnthMsg where
  role : String
  content : List AnthContent

/-- The per-part translation inside translateMessage (llm/anthropic.go lines
165-191): images are skipped, tool results keep id and content. -/
def translatePart : ContentPart → Option AnthContent
  | ContentPart.text s => some (AnthContent.text s)
  | ContentPart.toolCall tc => some (AnthContent.toolUse tc.id tc.name tc.arguments)
  | ContentPart.toolResult tr => some (AnthContent.toolResult tr.toolCallID tr.content)
  | ContentPart.thinking th => some (AnthContent.thinking th.text th.signature)
  | ContentPart.image _ _ _ => none

/-- llm/anthropic.go, translateMessage: user and tool-result-carrier map to
the wire role user, assistant to assistant (the switch has no system case —
system messages are extracted before translation, so the zero value stays). -/
def translateMessage (m : Message) : AnthMsg :=
  let role :=
    match m.role with
    | Role.user => "user"
    | Role.assistant => "assistant"
    | Role.tool => "user"
    | Role.system => ""
  ⟨role, m.content.filterMap translatePart⟩

/-- One iteration of the merge loop in BuildInvokeInput (llm/anthropic.go
lines 94-102): when the last emitted message has the same mapped role,
extend its content list; otherwise append a new message. -/
def mergePush (acc : List AnthMsg) (am : AnthMsg) : List AnthMsg :=
  match acc.getLast? with
  | some lastM =>
    if lastM.role = am.role then
      acc.dropLast ++ [⟨lastM.role, lastM.content ++ am.content⟩]
    else acc ++ [am]
  | none => acc ++ [am]

/-- The non-system messages BuildInvokeInput translates (system messages are
diverted into the request's system field, llm/anthropic.go lines 74-86). -/
def anthropicNonSystem (ms : List Message) : List Message :=
  ms.filter (fun m => decide (m.role ≠ Role.system))

/-- The message list of the Anthropic wire request: translate each
non-system message and merge consecutive same-role messages. -/
def buildAnthMessages (ms : List Message) : List AnthMsg :=
  (anthropicNonSystem ms).foldl (fun acc m => mergePush acc (translateMessage m)) []

/-- Reference recursion for the merge loop: collapse each maximal run of
equal-role messages into one message with the contents concatenated in
order. -/
def mergeRuns : List AnthMsg → List AnthMsg
  | [] => []
  | [a] => [a]
  | a :: b :: rest =>
    if a.role = b.role then mergeRuns (⟨a.role, a.content ++ b.content⟩ :: rest)
    else a :: mergeRuns (b :: rest)
termination_by l => l.length

/-- The content parts of a wire message list, flattened in order. -/
def flatContent (l : List AnthMsg) : List AnthContent :=
  (l.map AnthMsg.content).flatten

/-- No two consecutive wire messages share a role. -/
def altRoles (l : List AnthMsg) : Prop :=
  List.Chain' (fun a b => a ≠ b) (l.map AnthMsg.role)

/- ## Go slices of Messages, modelled explicitly (for the Send claims).
A slice value is a view (array id, offset, length) into a numbered backing
array; the store holds the backing arrays.  An array's list length is its
capacity; append writes in place when spare capacity suffices and otherwise
allocates a fresh array (the growth factor is irrelevant: fresh is fresh). -/

structure GoSlice where
  arr : Nat
  off : Nat
  len : Nat
deriving DecidableEq

abbrev Store := List (List Message)

/-- The backing array with the given id (an out-of-store id reads as empty). -/
def stGet : Store → Nat → List Message
  | [], _ => []
  | a :: _, 0 => a
  | _ :: t, n + 1 => stGet t n

/-- Replace the backing array with the given id. -/
def stSet : Store → Nat → List Message → Store
  | [], _, _ => []
  | _ :: t, 0, a => a :: t
  | h :: t, n + 1, a => h :: stSet t n a

/-- The elements a slice exposes. -/
def stRead (st : Store) (s : GoSlice) : List Message :=
  ((stGet st s.arr).drop s.off).take s.len

/-- The slice is a well-formed view into its backing array. -/
def sliceWF (st : Store) (s : GoSlice) : Prop :=
  s.off + s.len ≤ (stGet st s.arr).length

/-- Go's append: with spare capacity, write the new elements in place after
the slice's last element and lengthen the view; otherwise allocate a fresh
backing array holding the old contents followed by the new elements. -/
def goAppend (st : Store) (s : GoSlice) (xs : List Message) : Store × GoSlice :=
  let a := stGet st s.arr
  if s.off + s.len + xs.length ≤ a.length then
    let a2 := a.take (s.off + s.len) ++ xs ++ a.drop (s.off + s.len + xs.length)
    (stSet st s.arr a2, ⟨s.arr, s.off, s.len + xs.length⟩)
  else
    (st ++ [stRead st s ++ xs], ⟨st.length, 0, s.len + xs.length⟩)

/-- The copy step at the top of Client.Send (part_004 line 53):
conv.Messages = append(append([]Message(nil), conv.Messages...), messages...).
The nil slice is modelled as a view into a freshly allocated zero-capacity
array, so the inner append reallocates exactly as Go's does for non-empty
contents and the copy never aliases the caller's backing array. -/
def sendCopy (st : Store) (s : GoSlice) (msgs : List Message) : Store × GoSlice :=
  let st1 := st ++ [[]]
  let nilS : GoSlice := ⟨st.length, 0, 0⟩
  let r1 := goAppend st1 nilS (stRead st s)
  goAppend r1.1 r1.2 msgs

/-- A Send failure: the classified Bedrock error, or the raw parse error
fromConverseOutput returns for an unexpected output shape. -/
inductive SendErr where
  | classified (e : LLMError)
  | parse (raw : String)

/-- part_004 lines 51-92, Client.Send with no middleware registered (the
loop then leaves fn = core): copy the caller's message slice and append the
caller's new messages; run the core — toConverseInput, the injected
transport, fromConverseOutput — whose outcome is supplied here as a value
since the transport is an injected dependency; on failure return the
post-copy conversation, the untouched usage and the error (classified for a
Converse failure, raw for a parse failure); on success append the assistant
reply to the copy and accumulate the turn's usage. -/
def sendModel (st : Store) (s : GoSlice) (usage : Usage) (newMsgs : List Message)
    (core : Except BedrockErr (Except String Response)) :
    Store × GoSlice × Usage × Except SendErr Response :=
  let r := sendCopy st s newMsgs
  match core with
  | Except.error e =>
    (r.1, r.2, usage, Except.error (SendErr.classified (classifyBedrockError e)))
  | Except.ok (Except.error raw) =>
    (r.1, r.2, usage, Except.error (SendErr.parse raw))
  | Except.ok (Except.ok resp) =>
    let r2 := goAppend r.1 r.2 [resp.message]
    (r2.1, r2.2, usage.add resp.usage, Except.ok resp)

/-- A sequence of successful sends: each turn supplies the caller's new
messages and the assistant response, and the message slice and usage evolve
as Client.Send's success path evolves them. -/
def runSends (st : Store) (s : GoSlice) (usage : Usage) :
    List (List Message × Response) → Store × GoSlice × Usage
  | [] => (st, s, usage)
  | (newMsgs, resp) :: rest =>
    let r := sendModel st s usage newMsgs (Except.ok (Except.ok resp))
    runSends r.1 r.2.1 r.2.2.1 rest

/- ## Theorems -/

theorem usage_add_assoc (a b c : Usage) : (a.add b).add c = a.add (b.add c) := by
  simp only [Usage.add, Usage.mk.injEq]
  omega

theorem usage_add_comm (a b : Usage) : a.add b = b.add a := by
  simp only [Usage.add, Usage.mk.injEq]
  omega

theorem foldl_usage_add (l : List Usage) : ∀ u0 : Usage, l.foldl Usage.add u0 = u0.add (usageSum l) := by
  induction l with
  | nil =>
    intro u0
    cases u0
    simp only [List.foldl_nil, usageSum, List.map_nil, List.sum_nil, Usage.add, Usage.mk.injEq]
    omega
  | cons h t ih =>
    intro u0
    simp only [List.foldl_cons, ih, usageSum, List.map_cons, List.sum_cons, Usage.add,
      Usage.mk.injEq]
    omega

theorem runSends_usage (turns : List (List Message × Response)) :
    ∀ (st : Store) (s : GoSlice) (u : Usage),
      (runSends st s u turns).2.2 = u.add (usageSum (turns.map (fun t => t.2.usage))) := by
  induction turns with
  | nil =>
    intro st s u
    cases u
    simp only [runSends, usageSum, List.map_nil, List.sum_nil, Usage.add, Usage.mk.injEq]
    omega
  | cons h t ih =>
    intro st s u
    simp only [runSends, sendModel, ih, usageSum, List.map_cons, List.sum_cons, Usage.add,
      Usage.mk.injEq]
    omega

/-- C9: Usage accumulation (Usage.Add) is associative and commutative
elementwise integer addition of the five counters, folding per-turn usage
yields the elementwise sum, and over any sequence of successful sends the
final conversation usage equals the starting usage plus the elementwise sum
of the per-turn usage values. -/
theorem usage_accumulation_law :
    (∀ a b c : Usage, (a.add b).add c = a.add (b.add c)) ∧
    (∀ a b : Usage, a.add b = b.add a) ∧
    (∀ (u0 : Usage) (l : List Usage), l.foldl Usage.add u0 = u0.add (usageSum l)) ∧
    (∀ (st : Store) (s : GoSlice) (u : Usage) (turns : List (List Message × Response)),
      (runSends st s u turns).2.2 =
        u.add (usageSum (turns.map (fun t => t.2.usage)))) :=
  ⟨usage_add_assoc, usage_add_comm, fun u0 l => foldl_usage_add l u0,
   fun st s u turns => runSends_usage turns st s u⟩

/-- C7: the error classifier is total and two-tier — known Bedrock exception
types map per the fixed table, any other failure is substring-classified on
the lower-cased message (context_length and content_filter families, server
otherwise) — and the original error is preserved as the wrapped cause; with
the spec's three examples. -/
theorem classifier_two_tier_total :
    (∀ e : BedrockErr, classifyBedrockError e = ⟨classifierKindSpec e, e.message, e⟩) ∧
    classifyBedrockError ⟨some BedrockExc.throttling, "slow down"⟩ =
      ⟨ErrorKind.rateLimit, "slow down", ⟨some BedrockExc.throttling, "slow down"⟩⟩ ∧
    (classifyBedrockError ⟨none, "Blocked by Content Filter policy"⟩).kind =
      ErrorKind.contentFilter ∧
    (classifyBedrockError ⟨none, "Input has Too Many Tokens for this model"⟩).kind =
      ErrorKind.contextLength ∧
    (classifyBedrockError ⟨none, "something unexpected happened"⟩).kind = ErrorKind.server := by
  refine ⟨fun e => ?_, by decide, by decide, by decide, by decide⟩
  cases e with
  | mk ot m =>
    cases ot with
    | none => rfl
    | some exc => cases exc <;> rfl

/-- C8 counterexample: mapStopReason's default case passes an unrecognised
backend stop-reason string through verbatim, so a reply carrying one (the
SDK's StopReason is an open string type) yields a finish reason outside the
unified vocabulary, contrary to the claim that no reply does. -/
theorem mapStopReason_unknown_escapes_vocab :
    mapStopReason "model_complete" = "model_complete" ∧
    "model_complete" ∉ finishVocab := by
  decide

/-- C8 amended: every recognised backend stop signal (end-of-turn,
stop-sequence, max-token and context-window truncation, tool use, content
filter and guardrail interventions) maps into the unified vocabulary exactly
per the fixed table; an unrecognised stop-reason string is passed through
verbatim as the finish reason. -/
theorem mapStopReason_known_table (sr : String) :
    (sr ∈ knownStopReasons →
      mapStopReason sr = stopReasonTable sr ∧ mapStopReason sr ∈ finishVocab) ∧
    (sr ∉ knownStopReasons → mapStopReason sr = sr) := by
  constructor
  · intro h
    simp only [knownStopReasons, List.mem_cons, List.not_mem_nil, or_false] at h
    rcases h with rfl | rfl | rfl | rfl | rfl | rfl | rfl <;> exact ⟨by decide, by decide⟩
  · intro h
    simp only [knownStopReasons, List.mem_cons, List.not_mem_nil, or_false, not_or] at h
    obtain ⟨h1, h2, h3, h4, h5, h6, h7⟩ := h
    simp [mapStopReason, h1, h2, h3, h4, h5, h6, h7]

theorem checkParams_ok_iff (args : ToolCallArgs) :
    ∀ ps : List Param,
      checkParams ps args = Except.ok () ↔ ∀ p ∈ ps, paramAccepted args p = true := by
  intro ps
  induction ps with
  | nil => simp [checkParams]
  | cons p rest ih =>
    simp only [checkParams, List.mem_cons, forall_eq_or_imp]
    cases hl : argLookup args p.name with
    | none =>
      by_cases hr : p.required
      · simp [hl, hr, paramAccepted]
      · simp [hl, hr, paramAccepted, ih]
    | some v =>
      by_cases hs : p.typ = "string"
      · cases v <;> simp [hl, hs, paramAccepted, typeMatches, ih]
      · by_cases hn : p.typ = "number" ∨ p.typ = "integer"
        · cases v <;> simp [hl, hs, hn, paramAccepted, typeMatches, ih]
        · by_cases hb : p.typ = "boolean"
          · cases v <;> simp [hl, hs, hn, hb, paramAccepted, typeMatches, ih]
          · simp [hl, hs, hn, hb, paramAccepted, typeMatches, ih]

theorem checkParams_missing (args : ToolCallArgs) (nm : String) :
    ∀ ps : List Param,
      checkParams ps args = Except.error (ParseErr.missingRequired nm) →
      ∃ p ∈ ps, p.name = nm ∧ p.required = true ∧ argLookup args nm = none := by
  intro ps
  induction ps with
  | nil => simp [checkParams]
  | cons p rest ih =>
    intro h
    simp only [checkParams] at h
    cases hl : argLookup args p.name with
    | none =>
      simp only [hl] at h
      by_cases hr : p.required = true
      · simp only [if_pos hr, Except.error.injEq, ParseErr.missingRequired.injEq] at h
        exact ⟨p, List.mem_cons_self p rest, h, hr, h ▸ hl⟩
      · simp only [if_neg hr] at h
        obtain ⟨q, hq, hrest⟩ := ih h
        exact ⟨q, List.mem_cons_of_mem p hq, hrest⟩
    | some v =>
      simp only [hl] at h
      by_cases hs : p.typ = "string"
      · simp only [if_pos hs] at h
        cases v with
        | jstr s =>
          obtain ⟨q, hq, hrest⟩ := ih h
          exact ⟨q, List.mem_cons_of_mem p hq, hrest⟩
        | jnull => simp at h
        | jbool b => simp at h
        | jnum n => simp at h
        | jarr l => simp at h
        | jobj l => simp at h
      · simp only [if_neg hs] at h
        by_cases hn : p.typ = "number" ∨ p.typ = "integer"
        · simp only [if_pos hn] at h
          cases v with
          | jnum n =>
            obtain ⟨q, hq, hrest⟩ := ih h
            exact ⟨q, List.mem_cons_of_mem p hq, hrest⟩
          | jnull => simp at h
          | jbool b => simp at h
          | jstr s => simp at h
          | jarr l => simp at h
          | jobj l => simp at h
        · simp only [if_neg hn] at h
          by_cases hb : p.typ = "boolean"
          · simp only [if_pos hb] at h
            cases v with
            | jbool b =>
              obtain ⟨q, hq, hrest⟩ := ih h
              exact ⟨q, List.mem_cons_of_mem p hq, hrest⟩
            | jnull => simp at h
            | jnum n => simp at h
            | jstr s => simp at h
            | jarr l => simp at h
            | jobj l => simp at h
          · simp only [if_neg hb] at h
            obtain ⟨q, hq, hrest⟩ := ih h
            exact ⟨q, List.mem_cons_of_mem p hq, hrest⟩

theorem checkParams_mismatch (args : ToolCallArgs) (nm t : String) :
    ∀ ps : List Param,
      checkParams ps args = Except.error (ParseErr.typeMismatch nm t) →
      ∃ p ∈ ps, p.name = nm ∧ ∃ v, argLookup args p.name = some v ∧
        typeMatches p.typ v = false := by
  intro ps
  induction ps with
  | nil => simp [checkParams]
  | cons p rest ih =>
    intro h
    simp only [checkParams] at h
    cases hl : argLookup args p.name with
    | none =>
      simp only [hl] at h
      by_cases hr : p.required = true
      · simp only [if_pos hr] at h
        simp at h
      · simp only [if_neg hr] at h
        obtain ⟨q, hq, hrest⟩ := ih h
        exact ⟨q, List.mem_cons_of_mem p hq, hrest⟩
    | some v =>
      simp only [hl] at h
      by_cases hs : p.typ = "string"
      · simp only [if_pos hs] at h
        cases v with
        | jstr s =>
          obtain ⟨q, hq, hrest⟩ := ih h
          exact ⟨q, List.mem_cons_of_mem p hq, hrest⟩
        | jnull =>
          simp only [Except.error.injEq, ParseErr.typeMismatch.injEq] at h
          exact ⟨p, List.mem_cons_self p rest, h.1, JVal.jnull, hl, by simp [typeMatches, hs]⟩
        | jbool b =>
          simp only [Except.error.injEq, ParseErr.typeMismatch.injEq] at h
          exact ⟨p, List.mem_cons_self p rest, h.1, JVal.jbool b, hl, by simp [typeMatches, hs]⟩
        | jnum n =>
          simp only [Except.error.injEq, ParseErr.typeMismatch.injEq] at h
          exact ⟨p, List.mem_cons_self p rest, h.1, JVal.jnum n, hl, by simp [typeMatches, hs]⟩
        | jarr l =>
          simp only [Except.error.injEq, ParseErr.typeMismatch.injEq] at h
          exact ⟨p, List.mem_cons_self p rest, h.1, JVal.jarr l, hl, by simp [typeMatches, hs]⟩
        | jobj l =>
          simp only [Except.error.injEq, ParseErr.typeMismatch.injEq] at h
          exact ⟨p, List.mem_cons_self p rest, h.1, JVal.jobj l, hl, by simp [typeMatches, hs]⟩
      · simp only [if_neg hs] at h
        by_cases hn : p.typ = "number" ∨ p.typ = "integer"
        · simp only [if_pos hn] at h
          cases v with
          | jnum n =>
            obtain ⟨q, hq, hrest⟩ := ih h
            exact ⟨q, List.mem_cons_of_mem p hq, hrest⟩
          | jnull =>
            simp only [Except.error.injEq, ParseErr.typeMismatch.injEq] at h
            exact ⟨p, List.mem_cons_self p rest, h.1, JVal.jnull, hl,
              by simp [typeMatches, hs, hn]⟩
          | jbool b =>
            simp only [Except.error.injEq, ParseErr.typeMismatch.injEq] at h
            exact ⟨p, List.mem_cons_self p rest, h.1, JVal.jbool b, hl,
              by simp [typeMatches, hs, hn]⟩
          | jstr s =>
            simp only [Except.error.injEq, ParseErr.typeMismatch.injEq] at h
            exact ⟨p, List.mem_cons_self p rest, h.1, JVal.jstr s, hl,
              by simp [typeMatches, hs, hn]⟩
          | jarr l =>
            simp only [Except.error.injEq, ParseErr.typeMismatch.injEq] at h
            exact ⟨p, List.mem_cons_self p rest, h.1, JVal.jarr l, hl,
              by simp [typeMatches, hs, hn]⟩
          | jobj l =>
            simp only [Except.error.injEq, ParseErr.typeMismatch.injEq] at h
            exact ⟨p, List.mem_cons_self p rest, h.1, JVal.jobj l, hl,
              by simp [typeMatches, hs, hn]⟩
        · simp only [if_neg hn] at h
          by_cases hb : p.typ = "boolean"
          · simp only [if_pos hb] at h
            cases v with
            | jbool b =>
              obtain ⟨q, hq, hrest⟩ := ih h
              exact ⟨q, List.mem_cons_of_mem p hq, hrest⟩
            | jnull =>
              simp only [Except.error.injEq, ParseErr.typeMismatch.injEq] at h
              exact ⟨p, List.mem_cons_self p rest, h.1, JVal.jnull, hl,
                by simp [typeMatches, hs, hn, hb]⟩
            | jnum n =>
              simp only [Except.error.injEq, ParseErr.typeMismatch.injEq] at h
              exact ⟨p, List.mem_cons_self p rest, h.1, JVal.jnum n, hl,
                by simp [typeMatches, hs, hn, hb]⟩
            | jstr s =>
              simp only [Except.error.injEq, ParseErr.typeMismatch.injEq] at h
              exact ⟨p, List.mem_cons_self p rest, h.1, JVal.jstr s, hl,
                by simp [typeMatches, hs, hn, hb]⟩
            | jarr l =>
              simp only [Except.error.injEq, ParseErr.typeMismatch.injEq] at h
              exact ⟨p, List.mem_cons_self p rest, h.1, JVal.jarr l, hl,
                by simp [typeMatches, hs, hn, hb]⟩
            | jobj l =>
              simp only [Except.error.injEq, ParseErr.typeMismatch.injEq] at h
              exact ⟨p, List.mem_cons_self p rest, h.1, JVal.jobj l, hl,
                by simp [typeMatches, hs, hn, hb]⟩
          · simp only [if_neg hb] at h
            obtain ⟨q, hq, hrest⟩ := ih h
            exact ⟨q, List.mem_cons_of_mem p hq, hrest⟩

/-- C6: ParseArgs accepts a decoded argument object exactly when every
declared parameter is satisfied (required parameters present, present typed
parameters of the declared runtime type), a missing-required failure names a
required declared parameter absent from the arguments, a type-mismatch
failure names a present declared parameter whose runtime type does not
match, missing optional parameters and unrecognised extra keys are accepted,
and the two concrete instances of the claim behave as stated. -/
theorem parseArgs_validation :
    (∀ (td : ToolDefinition) (id nm : String) (pairs : List (String × JVal)),
      td.ParseArgs ⟨id, nm, RawArgs.obj pairs⟩ = Except.ok pairs ↔
        ∀ p ∈ td.params, paramAccepted pairs p = true) ∧
    (∀ (td : ToolDefinition) (id nm : String) (pairs : List (String × JVal)) (errNm : String),
      td.ParseArgs ⟨id, nm, RawArgs.obj pairs⟩ = Except.error (ParseErr.missingRequired errNm) →
        ∃ p ∈ td.params, p.name = errNm ∧ p.required = true ∧ argLookup pairs errNm = none) ∧
    (∀ (td : ToolDefinition) (id nm : String) (pairs : List (String × JVal)) (errNm t : String),
      td.ParseArgs ⟨id, nm, RawArgs.obj pairs⟩ = Except.error (ParseErr.typeMismatch errNm t) →
        ∃ p ∈ td.params, p.name = errNm ∧ ∃ v, argLookup pairs p.name = some v ∧
          typeMatches p.typ v = false) ∧
    (NewTool "order" "Get order" [IntegerParam "user_id" [], IntegerParam "order_id" []]).ParseArgs
        ⟨"call-21", "order", RawArgs.obj [("user_id", JVal.jnum 1)]⟩ =
      Except.error (ParseErr.missingRequired "order_id") ∧
    (NewTool "order" "Get order" [IntegerParam "user_id" []]).ParseArgs
        ⟨"call-22", "order", RawArgs.obj [("user_id", JVal.jstr "x")]⟩ =
      Except.error (ParseErr.typeMismatch "user_id" "number") ∧
    (NewTool "order" "Get order" [IntegerParam "user_id" [], OptionalStringParam "note" []]).ParseArgs
        ⟨"call-23", "order", RawArgs.obj [("user_id", JVal.jnum 1)]⟩ =
      Except.ok [("user_id", JVal.jnum 1)] ∧
    (NewTool "ping" "Ping" []).ParseArgs
        ⟨"call-24", "ping", RawArgs.obj [("extra", JVal.jbool true)]⟩ =
      Except.ok [("extra", JVal.jbool true)] := by
  refine ⟨?_, ?_, ?_, rfl, rfl, rfl, rfl⟩
  · intro td id nm pairs
    cases hc : checkParams td.params pairs with
    | ok u =>
      cases u
      constructor
      · intro _
        exact (checkParams_ok_iff pairs td.params).mp hc
      · intro _
        simp [ToolDefinition.ParseArgs, unmarshalArgs, hc]
    | error e =>
      constructor
      · intro hcontra
        simp [ToolDefinition.ParseArgs, unmarshalArgs, hc] at hcontra
      · intro hall
        have h2 := (checkParams_ok_iff pairs td.params).mpr hall
        rw [hc] at h2
        exact Except.noConfusion h2
  · intro td id nm pairs errNm h
    have hc : checkParams td.params pairs = Except.error (ParseErr.missingRequired errNm) := by
      cases hc2 : checkParams td.params pairs with
      | ok u => simp [ToolDefinition.ParseArgs, unmarshalArgs, hc2] at h
      | error e =>
        simp [ToolDefinition.ParseArgs, unmarshalArgs, hc2] at h
        rw [h]
    exact checkParams_missing pairs errNm td.params hc
  · intro td id nm pairs errNm t h
    have hc : checkParams td.params pairs = Except.error (ParseErr.typeMismatch errNm t) := by
      cases hc2 : checkParams td.params pairs with
      | ok u => simp [ToolDefinition.ParseArgs, unmarshalArgs, hc2] at h
      | error e =>
        simp [ToolDefinition.ParseArgs, unmarshalArgs, hc2] at h
        rw [h]
    exact checkParams_mismatch pairs errNm t td.params hc

theorem checkParams_required_err :
    ∀ ps : List Param, (∃ q ∈ ps, q.required = true) →
      ∃ nm, checkParams ps [] = Except.error (ParseErr.missingRequired nm) := by
  intro ps
  induction ps with
  | nil => simp
  | cons p rest ih =>
    intro h
    have hl : argLookup ([] : ToolCallArgs) p.name = none := rfl
    simp only [checkParams, hl]
    by_cases hr : p.required = true
    · exact ⟨p.name, by rw [if_pos hr]⟩
    · obtain ⟨q, hq, hqr⟩ := h
      rcases List.mem_cons.mp hq with heq | hq'
      · exact absurd (heq ▸ hqr) hr
      · rw [if_neg hr]
        exact ih ⟨q, hq', hqr⟩

theorem checkParams_typed_err (p : Param) :
    ∀ ps : List Param, (∀ q ∈ ps, q.required = false) → p ∈ ps →
      p.typ ∈ ["string", "number", "integer", "boolean"] →
      ∃ nm t, checkParams ps [(p.name, JVal.jnull)] =
        Except.error (ParseErr.typeMismatch nm t) := by
  intro ps
  induction ps with
  | nil => simp
  | cons q rest ih =>
    intro hnr hp htyp
    by_cases hqp : q.name = p.name
    · have hl : argLookup [(p.name, JVal.jnull)] q.name = some JVal.jnull := by
        simp [argLookup, hqp]
      simp only [checkParams, hl]
      by_cases hs : q.typ = "string"
      · exact ⟨q.name, "string", by rw [if_pos hs]⟩
      · by_cases hn : q.typ = "number" ∨ q.typ = "integer"
        · exact ⟨q.name, "number", by rw [if_neg hs, if_pos hn]⟩
        · by_cases hb : q.typ = "boolean"
          · exact ⟨q.name, "boolean", by rw [if_neg hs, if_neg hn, if_pos hb]⟩
          · rw [if_neg hs, if_neg hn, if_neg hb]
            have hp' : p ∈ rest := by
              rcases List.mem_cons.mp hp with heq | h'
              · exfalso
                rw [heq] at htyp
                simp only [List.mem_cons, List.mem_singleton] at htyp
                rcases htyp with h1 | h2 | h3 | h4
                · exact hs h1
                · exact hn (Or.inl h2)
                · exact hn (Or.inr h3)
                · simp at h4
                  exact hb h4
              · exact h'
            exact ih (fun r hr => hnr r (List.mem_cons_of_mem q hr)) hp' htyp
    · have hl : argLookup [(p.name, JVal.jnull)] q.name = none := by
        simp only [argLookup, List.reverse_singleton, List.find?]
        rw [show ((p.name, JVal.jnull).fst == q.name) = false from
          beq_eq_false_iff_ne.mpr (fun hcon => hqp hcon.symm)]
        rfl
      simp only [checkParams, hl]
      have hqr : q.required = false := hnr q (List.mem_cons_self q rest)
      rw [if_neg (by simp [hqr])]
      have hp' : p ∈ rest := by
        rcases List.mem_cons.mp hp with heq | h'
        · exact absurd (heq ▸ rfl) hqp
        · exact h'
      exact ih (fun r hr => hnr r (List.mem_cons_of_mem q hr)) hp' htyp

/-- C10: a ToolDefinition built by NewTool with at least one required or
typed parameter loses all required-parameter and type validation across a
JSON marshal/unmarshal round-trip (the parameter list lives in an unexported,
unserialised field): some argument object the original rejects is accepted
by the round-tripped definition, a round-tripped definition can only fail on
undecodable argument bytes, and concretely the round-trip of a tool with one
required integer parameter accepts the empty argument object the original
rejects. -/
theorem roundtrip_loses_validation :
    (∀ (name desc : String) (ps : List Param),
      (∃ p ∈ ps, p.required = true ∨ p.typ ∈ ["string", "number", "integer", "boolean"]) →
      ∃ raw : RawArgs,
        (∃ e, (NewTool name desc ps).ParseArgs ⟨"call", name, raw⟩ = Except.error e ∧
          e ≠ ParseErr.unmarshal) ∧
        ∃ args, ((NewTool name desc ps).jsonRoundTrip).ParseArgs ⟨"call", name, raw⟩ =
          Except.ok args) ∧
    (∀ (td : ToolDefinition) (tc : ToolCallData) (e : ParseErr),
      (td.jsonRoundTrip).ParseArgs tc = Except.error e → e = ParseErr.unmarshal) ∧
    (NewTool "order" "Get order" [IntegerParam "user_id" []]).ParseArgs
        ⟨"c", "order", RawArgs.obj []⟩ = Except.error (ParseErr.missingRequired "user_id") ∧
    ((NewTool "order" "Get order" [IntegerParam "user_id" []]).jsonRoundTrip).ParseArgs
        ⟨"c", "order", RawArgs.obj []⟩ = Except.ok [] := by
  refine ⟨?_, ?_, rfl, rfl⟩
  · intro name desc ps hex
    by_cases hreq : ∃ q ∈ ps, q.required = true
    · obtain ⟨nm, hnm⟩ := checkParams_required_err ps hreq
      refine ⟨RawArgs.obj [], ⟨ParseErr.missingRequired nm, ?_, by simp⟩, [], rfl⟩
      show (match checkParams ps [] with
        | Except.error e => Except.error e
        | Except.ok _ => Except.ok ([] : ToolCallArgs)) =
          Except.error (ParseErr.missingRequired nm)
      rw [hnm]
    · obtain ⟨p, hp, hcase⟩ := hex
      have hall : ∀ q ∈ ps, q.required = false := by
        intro q hq
        rcases Bool.eq_false_or_eq_true q.required with ht | hf
        · exact absurd ⟨q, hq, ht⟩ hreq
        · exact hf
      have htyp : p.typ ∈ ["string", "number", "integer", "boolean"] := by
        rcases hcase with hr | ht
        · exact absurd hr (by simp [hall p hp])
        · exact ht
      obtain ⟨nm, t, hnm⟩ := checkParams_typed_err p ps hall hp htyp
      refine ⟨RawArgs.obj [(p.name, JVal.jnull)], ⟨ParseErr.typeMismatch nm t, ?_, by simp⟩,
        [(p.name, JVal.jnull)], rfl⟩
      show (match checkParams ps [(p.name, JVal.jnull)] with
        | Except.error e => Except.error e
        | Except.ok _ => Except.ok [(p.name, JVal.jnull)]) =
          Except.error (ParseErr.typeMismatch nm t)
      rw [hnm]
  · intro td tc e h
    obtain ⟨id2, nm2, args2⟩ := tc
    cases args2 with
    | empty => exact absurd h (by simp [ToolDefinition.ParseArgs, ToolDefinition.jsonRoundTrip,
        unmarshalArgs, checkParams])
    | malformed =>
      simp only [ToolDefinition.ParseArgs, ToolDefinition.jsonRoundTrip, unmarshalArgs,
        Except.error.injEq] at h
      exact h.symm
    | obj pairs => exact absurd h (by simp [ToolDefinition.ParseArgs, ToolDefinition.jsonRoundTrip,
        unmarshalArgs, checkParams])

theorem mergePush_concat (as : List AnthMsg) (a am : AnthMsg) :
    mergePush (as ++ [a]) am = as ++ mergePush [a] am := by
  unfold mergePush
  rw [List.getLast?_concat]
  by_cases h : a.role = am.role
  · simp [h, List.dropLast_concat]
  · simp [h]

theorem foldl_mergePush_concat (l : List AnthMsg) :
    ∀ (as : List AnthMsg) (a : AnthMsg),
      l.foldl mergePush (as ++ [a]) = as ++ l.foldl mergePush [a] := by
  induction l with
  | nil => simp
  | cons b t ih =>
    intro as a
    simp only [List.foldl_cons]
    rw [mergePush_concat]
    by_cases h : a.role = b.role
    · have hm : mergePush [a] b = [⟨a.role, a.content ++ b.content⟩] := by
        simp [mergePush, h]
      rw [hm]
      exact ih as _
    · have hm : mergePush [a] b = [a, b] := by
        simp [mergePush, h]
      rw [hm]
      rw [show as ++ [a, b] = (as ++ [a]) ++ [b] by simp]
      rw [ih (as ++ [a]) b]
      rw [show ([a, b] : List AnthMsg) = [a] ++ [b] from rfl, ih [a] b]
      simp

theorem foldl_mergePush_eq_mergeRuns (l : List AnthMsg) :
    ∀ a : AnthMsg, l.foldl mergePush [a] = mergeRuns (a :: l) := by
  induction l with
  | nil =>
    intro a
    simp [mergeRuns]
  | cons b t ih =>
    intro a
    simp only [List.foldl_cons]
    by_cases h : a.role = b.role
    · have hm : mergePush [a] b = [⟨a.role, a.content ++ b.content⟩] := by
        simp [mergePush, h]
      rw [hm, ih]
      rw [mergeRuns]
      simp [h]
    · have hm : mergePush [a] b = [a, b] := by
        simp [mergePush, h]
      rw [hm]
      rw [show ([a, b] : List AnthMsg) = [a] ++ [b] from rfl]
      rw [foldl_mergePush_concat t [a] b, ih]
      rw [mergeRuns]
      simp [h]

theorem mergeRuns_head (l : List AnthMsg) :
    ∀ a : AnthMsg, ∃ c rest, mergeRuns (a :: l) = AnthMsg.mk a.role c :: rest := by
  induction l with
  | nil =>
    intro a
    exact ⟨a.content, [], by simp [mergeRuns]⟩
  | cons b t ih =>
    intro a
    by_cases h : a.role = b.role
    · obtain ⟨c, rest, hr⟩ := ih ⟨a.role, a.content ++ b.content⟩
      refine ⟨c, rest, ?_⟩
      rw [mergeRuns, if_pos h]
      exact hr
    · exact ⟨a.content, mergeRuns (b :: t), by rw [mergeRuns]; simp [h]⟩

theorem mergeRuns_alt (l : List AnthMsg) :
    ∀ a : AnthMsg, altRoles (mergeRuns (a :: l)) := by
  induction l with
  | nil =>
    intro a
    simp [mergeRuns, altRoles]
  | cons b t ih =>
    intro a
    by_cases h : a.role = b.role
    · rw [mergeRuns, if_pos h]
      exact ih ⟨a.role, a.content ++ b.content⟩
    · rw [mergeRuns, if_neg h]
      obtain ⟨c, rest, hr⟩ := mergeRuns_head t b
      have halt := ih b
      rw [hr] at halt ⊢
      simp only [altRoles, List.map_cons, List.chain'_cons] at halt ⊢
      exact ⟨h, halt⟩

theorem mergeRuns_flat_aux (l : List AnthMsg) :
    ∀ a : AnthMsg, flatContent (mergeRuns (a :: l)) = a.content ++ flatContent l := by
  induction l with
  | nil =>
    intro a
    simp [mergeRuns, flatContent]
  | cons b t ih =>
    intro a
    by_cases h : a.role = b.role
    · rw [mergeRuns, if_pos h]
      rw [ih ⟨a.role, a.content ++ b.content⟩]
      simp [flatContent]
    · rw [mergeRuns, if_neg h]
      simp only [flatContent, List.map_cons, List.flatten_cons] at ih ⊢
      rw [ih b]

theorem buildAnthMessages_eq_mergeRuns (ms : List Message) :
    buildAnthMessages ms = mergeRuns ((anthropicNonSystem ms).map translateMessage) := by
  unfold buildAnthMessages
  rw [show ((anthropicNonSystem ms).foldl (fun acc m => mergePush acc (translateMessage m)) []) =
    (((anthropicNonSystem ms).map translateMessage).foldl mergePush []) from
    (List.foldl_map translateMessage mergePush (anthropicNonSystem ms) []).symm]
  cases hm : (anthropicNonSystem ms).map translateMessage with
  | nil => simp [mergeRuns]
  | cons a l =>
    simp only [List.foldl_cons]
    rw [show mergePush [] a = [a] by simp [mergePush]]
    exact foldl_mergePush_eq_mergeRuns l a

/-- C4: the Anthropic adapter (the alternation-strict wire format) merges
consecutive same-mapped-role messages: the emitted list is exactly the
run-collapse of the translated non-system messages, so no two consecutive
wire messages share a role and the content parts are preserved in order; and
the internal sequence [user, user, assistant] yields exactly two wire
messages, the merged user message (content parts in original order) followed
by the assistant message. -/
theorem anthropic_alternation_merge :
    (∀ ms : List Message,
      buildAnthMessages ms = mergeRuns ((anthropicNonSystem ms).map translateMessage)) ∧
    (∀ ms : List Message, altRoles (buildAnthMessages ms)) ∧
    (∀ ms : List Message,
      flatContent (buildAnthMessages ms) =
        flatContent ((anthropicNonSystem ms).map translateMessage)) ∧
    buildAnthMessages [UserMessage "a", UserMessage "b", AssistantMessage "c"] =
      [⟨"user", [AnthContent.text "a", AnthContent.text "b"]⟩,
       ⟨"assistant", [AnthContent.text "c"]⟩] := by
  refine ⟨buildAnthMessages_eq_mergeRuns, ?_, ?_, rfl⟩
  · intro ms
    rw [buildAnthMessages_eq_mergeRuns]
    cases hm : (anthropicNonSystem ms).map translateMessage with
    | nil => simp [mergeRuns, altRoles]
    | cons a l => exact mergeRuns_alt l a
  · intro ms
    rw [buildAnthMessages_eq_mergeRuns]
    cases hm : (anthropicNonSystem ms).map translateMessage with
    | nil => simp [mergeRuns]
    | cons a l =>
      rw [mergeRuns_flat_aux l a]
      simp [flatContent]

/-- C5 counterexample: a Conversation for a cache-capable (Anthropic) model
declaring three tools but a tool-choice mode of none produces no wire tool
configuration at all — no tool list and no cache marker — although at least
one tool exists, contrary to the claim that translation then appends exactly
one cache marker after the last tool declaration. -/
theorem converse_choice_none_drops_tool_cache_point :
    converseToolConfig
        ⟨"us.anthropic.claude-sonnet-4-5-20250929-v1:0", ["s1", "s2"], [],
         [NewTool "t1" "" [], NewTool "t2" "" [], NewTool "t3" "" []],
         ⟨none, [], some ⟨ToolChoiceMode.none, ""⟩⟩, ⟨0, 0, 0, 0, 0⟩⟩ = none ∧
    (⟨"us.anthropic.claude-sonnet-4-5-20250929-v1:0", ["s1", "s2"], [],
       [NewTool "t1" "" [], NewTool "t2" "" [], NewTool "t3" "" []],
       ⟨none, [], some ⟨ToolChoiceMode.none, ""⟩⟩, ⟨0, 0, 0, 0, 0⟩⟩ :
         Conversation).tools.length = 3 ∧
    isAnthropicModel "us.anthropic.claude-sonnet-4-5-20250929-v1:0" = true := by
  refine ⟨rfl, rfl, rfl⟩

/-- C5 amended: for a cache-capable (Anthropic) model the outbound Converse
translation appends exactly one cache point after the last system block when
system blocks exist, and exactly one cache point after the last tool
declaration when tools exist and the tool-choice mode is not none (a mode of
none suppresses the whole wire tool configuration, marker included); a
non-cache-capable model gets no marker anywhere; and a conversation with two
system blocks and three tools yields a wire system list of three entries and
a wire tool list of four entries, both markers strictly last. -/
theorem converse_cache_point_placement :
    (∀ conv : Conversation,
      (isAnthropicModel conv.model = true → conv.system ≠ [] →
        converseSystem conv = conv.system.map SystemBlock.text ++ [SystemBlock.cachePoint]) ∧
      (isAnthropicModel conv.model = true → conv.tools ≠ [] →
        conv.config.toolChoice.map ToolChoice.mode ≠ some ToolChoiceMode.none →
        ∃ cfg, converseToolConfig conv = some cfg ∧
          cfg.tools = (conv.tools.map (fun td =>
            ToolEntry.toolSpec td.name
              (if td.description = "" then none else some td.description)
              td.parameters)) ++ [ToolEntry.cachePoint]) ∧
      (isAnthropicModel conv.model = false →
        converseSystem conv = conv.system.map SystemBlock.text ∧
        converseToolEntries conv = conv.tools.map (fun td =>
          ToolEntry.toolSpec td.name
            (if td.description = "" then none else some td.description)
            td.parameters))) ∧
    converseSystem
        ⟨"us.anthropic.claude-sonnet-4-5-20250929-v1:0", ["s1", "s2"], [],
         [NewTool "t1" "" [], NewTool "t2" "" [], NewTool "t3" "" []],
         ⟨none, [], none⟩, ⟨0, 0, 0, 0, 0⟩⟩ =
      [SystemBlock.text "s1", SystemBlock.text "s2", SystemBlock.cachePoint] ∧
    ∃ cfg, converseToolConfig
        ⟨"us.anthropic.claude-sonnet-4-5-20250929-v1:0", ["s1", "s2"], [],
         [NewTool "t1" "" [], NewTool "t2" "" [], NewTool "t3" "" []],
         ⟨none, [], none⟩, ⟨0, 0, 0, 0, 0⟩⟩ = some cfg ∧
      cfg.tools.length = 4 ∧ cfg.tools.getLast? = some ToolEntry.cachePoint := by
  refine ⟨?_, rfl, ⟨⟨[ToolEntry.toolSpec "t1" none (NewTool "t1" "" []).parameters,
    ToolEntry.toolSpec "t2" none (NewTool "t2" "" []).parameters,
    ToolEntry.toolSpec "t3" none (NewTool "t3" "" []).parameters,
    ToolEntry.cachePoint], none⟩, rfl, rfl, rfl⟩⟩
  intro conv
  refine ⟨?_, ?_, ?_⟩
  · intro ha hs
    unfold converseSystem
    rw [if_pos ⟨ha, by simpa using List.length_pos.mpr hs⟩]
  · intro ha ht hc
    have hemp : conv.tools.isEmpty = false := by
      cases hcs : conv.tools with
      | nil => exact absurd hcs ht
      | cons a l => rfl
    cases htc : conv.config.toolChoice with
    | none =>
      refine ⟨⟨converseToolEntries conv, none⟩, ?_, ?_⟩
      · simp [converseToolConfig, hemp, htc]
      · unfold converseToolEntries
        rw [if_pos ha]
    | some tc =>
      cases hm : tc.mode with
      | auto =>
        refine ⟨⟨converseToolEntries conv, some WireToolChoice.auto⟩, ?_, ?_⟩
        · simp [converseToolConfig, hemp, htc, hm]
        · unfold converseToolEntries
          rw [if_pos ha]
      | required =>
        refine ⟨⟨converseToolEntries conv, some WireToolChoice.any⟩, ?_, ?_⟩
        · simp [converseToolConfig, hemp, htc, hm]
        · unfold converseToolEntries
          rw [if_pos ha]
      | named =>
        refine ⟨⟨converseToolEntries conv, some (WireToolChoice.tool tc.toolName)⟩, ?_, ?_⟩
        · simp [converseToolConfig, hemp, htc, hm]
        · unfold converseToolEntries
          rw [if_pos ha]
      | none =>
        exfalso
        apply hc
        rw [htc]
        simp [hm]
  · intro ha
    constructor
    · unfold converseSystem
      rw [if_neg (by simp [ha])]
    · unfold converseToolEntries
      rw [ha]
      simp

theorem stGet_append_lt : ∀ (st ts : Store) (i : Nat), i < st.length →
    stGet (st ++ ts) i = stGet st i := by
  intro st
  induction st with
  | nil => intro ts i h; exact absurd h (Nat.not_lt_zero i)
  | cons a t ih =>
    intro ts i h
    cases i with
    | zero => rfl
    | succ n => exact ih ts n (Nat.lt_of_succ_lt_succ h)

theorem stGet_append_self : ∀ (st : Store) (y : List Message),
    stGet (st ++ [y]) st.length = y := by
  intro st
  induction st with
  | nil => intro y; rfl
  | cons a t ih => intro y; exact ih y

theorem stGet_set_ne : ∀ (st : Store) (j : Nat) (a : List Message) (i : Nat), i ≠ j →
    stGet (stSet st j a) i = stGet st i := by
  intro st
  induction st with
  | nil => intro j a i _; rfl
  | cons h t ih =>
    intro j a i hne
    cases j with
    | zero =>
      cases i with
      | zero => exact absurd rfl hne
      | succ n => rfl
    | succ m =>
      cases i with
      | zero => rfl
      | succ n => exact ih m a n (fun hc => hne (congrArg Nat.succ hc))

theorem stGet_set_self : ∀ (st : Store) (j : Nat) (a : List Message), j < st.length →
    stGet (stSet st j a) j = a := by
  intro st
  induction st with
  | nil => intro j a h; exact absurd h (Nat.not_lt_zero j)
  | cons h t ih =>
    intro j a hj
    cases j with
    | zero => rfl
    | succ m => exact ih m a (Nat.lt_of_succ_lt_succ hj)

theorem stSet_length : ∀ (st : Store) (j : Nat) (a : List Message),
    (stSet st j a).length = st.length := by
  intro st
  induction st with
  | nil => intro j a; rfl
  | cons h t ih =>
    intro j a
    cases j with
    | zero => rfl
    | succ m => exact congrArg Nat.succ (ih m a)

/-- goAppend touches only backing arrays at or above a bound below which its
slice does not point: every array strictly below the bound is untouched, the
resulting slice stays at or above the bound, and the store never shrinks. -/
theorem goAppend_preserve (st : Store) (s' : GoSlice) (xs : List Message) (n : Nat)
    (hs : n ≤ s'.arr) (hl : n ≤ st.length) :
    (∀ i, i < n → stGet (goAppend st s' xs).1 i = stGet st i) ∧
    n ≤ (goAppend st s' xs).2.arr ∧ n ≤ (goAppend st s' xs).1.length := by
  unfold goAppend
  by_cases hc : s'.off + s'.len + xs.length ≤ (stGet st s'.arr).length
  · rw [if_pos hc]
    refine ⟨?_, hs, ?_⟩
    · intro i hi
      exact stGet_set_ne st s'.arr _ i (Nat.ne_of_lt (Nat.lt_of_lt_of_le hi hs))
    · rw [stSet_length]
      exact hl
  · rw [if_neg hc]
    refine ⟨?_, hl, ?_⟩
    · intro i hi
      exact stGet_append_lt st _ i (Nat.lt_of_lt_of_le hi hl)
    · simp only [List.length_append, List.length_cons, List.length_nil]
      omega

theorem sendCopy_preserve (st : Store) (s : GoSlice) (msgs : List Message) (n : Nat)
    (hl : n ≤ st.length) :
    (∀ i, i < n → stGet (sendCopy st s msgs).1 i = stGet st i) ∧
    n ≤ (sendCopy st s msgs).2.arr ∧ n ≤ (sendCopy st s msgs).1.length := by
  rw [show sendCopy st s msgs =
    goAppend (goAppend (st ++ [[]]) ⟨st.length, 0, 0⟩ (stRead st s)).1
      (goAppend (st ++ [[]]) ⟨st.length, 0, 0⟩ (stRead st s)).2 msgs from rfl]
  have hl1 : n ≤ (st ++ [[]]).length := by
    simp only [List.length_append, List.length_cons, List.length_nil]
    omega
  have h1 := goAppend_preserve (st ++ [[]]) ⟨st.length, 0, 0⟩ (stRead st s) n hl hl1
  have h2 := goAppend_preserve (goAppend (st ++ [[]]) ⟨st.length, 0, 0⟩ (stRead st s)).1
    (goAppend (st ++ [[]]) ⟨st.length, 0, 0⟩ (stRead st s)).2 msgs n h1.2.1 h1.2.2
  refine ⟨?_, h2.2.1, h2.2.2⟩
  intro i hi
  rw [h2.1 i hi, h1.1 i hi, stGet_append_lt st [[]] i (Nat.lt_of_lt_of_le hi hl)]

/-- C1: Send never mutates the caller's conversation value: for every store,
every well-formed caller slice, and every outcome of the translate/transport
/parse core (success or failure), the caller's message list reads back
unchanged from the resulting store. -/
theorem send_does_not_mutate_caller (st : Store) (s : GoSlice) (u : Usage)
    (newMsgs : List Message) (core : Except BedrockErr (Except String Response))
    (h : s.arr < st.length) :
    stRead (sendModel st s u newMsgs core).1 s = stRead st s := by
  have hcopy := sendCopy_preserve st s newMsgs st.length (Nat.le_refl st.length)
  cases core with
  | error e =>
    show stRead (sendCopy st s newMsgs).1 s = stRead st s
    unfold stRead
    rw [hcopy.1 s.arr h]
  | ok inner =>
    cases inner with
    | error raw =>
      show stRead (sendCopy st s newMsgs).1 s = stRead st s
      unfold stRead
      rw [hcopy.1 s.arr h]
    | ok resp =>
      show stRead (goAppend (sendCopy st s newMsgs).1 (sendCopy st s newMsgs).2
        [resp.message]).1 s = stRead st s
      have h2 := goAppend_preserve (sendCopy st s newMsgs).1 (sendCopy st s newMsgs).2
        [resp.message] st.length hcopy.2.1 hcopy.2.2
      unfold stRead
      rw [h2.1 s.arr h, hcopy.1 s.arr h]

/-- C1 witness: a concrete one-message conversation sent with one new message
and a failing transport reads back unchanged. -/
theorem send_does_not_mutate_caller_witness :
    stRead (sendModel [[UserMessage "hi"]] ⟨0, 0, 1⟩ ⟨0, 0, 0, 0, 0⟩ [UserMessage "next"]
      (Except.error ⟨none, "boom"⟩)).1 ⟨0, 0, 1⟩ =
      stRead [[UserMessage "hi"]] ⟨0, 0, 1⟩ :=
  send_does_not_mutate_caller [[UserMessage "hi"]] ⟨0, 0, 1⟩ ⟨0, 0, 0, 0, 0⟩
    [UserMessage "next"] (Except.error ⟨none, "boom"⟩) (by decide)

theorem stRead_length (st : Store) (s : GoSlice) (h : sliceWF st s) :
    (stRead st s).length = s.len := by
  unfold stRead
  unfold sliceWF at h
  rw [List.length_take, List.length_drop]
  omega

/-- goAppend on a well-formed slice yields a well-formed slice over the old
contents followed by the appended elements. -/
theorem goAppend_spec (st : Store) (s : GoSlice) (xs : List Message)
    (harr : s.arr < st.length) (hwf : sliceWF st s) :
    stRead (goAppend st s xs).1 (goAppend st s xs).2 = stRead st s ++ xs ∧
    sliceWF (goAppend st s xs).1 (goAppend st s xs).2 ∧
    (goAppend st s xs).2.arr < (goAppend st s xs).1.length := by
  have hwfl : s.off + s.len ≤ (stGet st s.arr).length := hwf
  unfold goAppend
  by_cases hc : s.off + s.len + xs.length ≤ (stGet st s.arr).length
  · rw [if_pos hc]
    have hget : stGet (stSet st s.arr
        ((stGet st s.arr).take (s.off + s.len) ++ xs ++
          (stGet st s.arr).drop (s.off + s.len + xs.length))) s.arr =
        (stGet st s.arr).take (s.off + s.len) ++ xs ++
          (stGet st s.arr).drop (s.off + s.len + xs.length) :=
      stGet_set_self st s.arr _ harr
    have hlen2 : ((stGet st s.arr).take (s.off + s.len) ++ xs ++
        (stGet st s.arr).drop (s.off + s.len + xs.length)).length =
        (stGet st s.arr).length := by
      simp only [List.length_append, List.length_take, List.length_drop]
      omega
    have hsl : (((stGet st s.arr).drop s.off).take s.len).length = s.len := by
      rw [List.length_take, List.length_drop]
      omega
    refine ⟨?_, ?_, ?_⟩
    · show stRead (stSet st s.arr _) ⟨s.arr, s.off, s.len + xs.length⟩ =
        stRead st s ++ xs
      unfold stRead
      dsimp only
      rw [hget, List.append_assoc]
      rw [List.drop_append_of_le_length (by rw [List.length_take]; omega)]
      rw [List.drop_take]
      rw [Nat.add_sub_cancel_left]
      rw [show s.len + xs.length = (((stGet st s.arr).drop s.off).take s.len).length +
        xs.length by rw [hsl]]
      rw [List.take_append]
      rw [List.take_left]
    · show sliceWF (stSet st s.arr _) ⟨s.arr, s.off, s.len + xs.length⟩
      unfold sliceWF
      dsimp only
      rw [hget, hlen2]
      omega
    · show (⟨s.arr, s.off, s.len + xs.length⟩ : GoSlice).arr < (stSet st s.arr _).length
      dsimp only
      rw [stSet_length]
      exact harr
  · rw [if_neg hc]
    have hy : stGet (st ++ [stRead st s ++ xs]) st.length = stRead st s ++ xs :=
      stGet_append_self st _
    have hyl : (stRead st s ++ xs).length = s.len + xs.length := by
      rw [List.length_append, stRead_length st s hwf]
    refine ⟨?_, ?_, ?_⟩
    · show stRead (st ++ [stRead st s ++ xs]) ⟨st.length, 0, s.len + xs.length⟩ =
        stRead st s ++ xs
      rw [show stRead (st ++ [stRead st s ++ xs]) ⟨st.length, 0, s.len + xs.length⟩ =
        ((stGet (st ++ [stRead st s ++ xs]) st.length).drop 0).take (s.len + xs.length)
        from rfl]
      rw [hy, List.drop_zero, ← hyl, List.take_length]
    · show sliceWF (st ++ [stRead st s ++ xs]) ⟨st.length, 0, s.len + xs.length⟩
      show 0 + (s.len + xs.length) ≤
        (stGet (st ++ [stRead st s ++ xs]) st.length).length
      rw [hy, hyl]
      omega
    · show (⟨st.length, 0, s.len + xs.length⟩ : GoSlice).arr <
        (st ++ [stRead st s ++ xs]).length
      dsimp only
      simp only [List.length_append, List.length_cons, List.length_nil]
      omega

/-- The copy step reads back as the caller's contents followed by the new
messages, through a fresh, well-formed slice. -/
theorem sendCopy_spec (st : Store) (s : GoSlice) (msgs : List Message) :
    stRead (sendCopy st s msgs).1 (sendCopy st s msgs).2 = stRead st s ++ msgs ∧
    sliceWF (sendCopy st s msgs).1 (sendCopy st s msgs).2 ∧
    (sendCopy st s msgs).2.arr < (sendCopy st s msgs).1.length := by
  rw [show sendCopy st s msgs =
    goAppend (goAppend (st ++ [[]]) ⟨st.length, 0, 0⟩ (stRead st s)).1
      (goAppend (st ++ [[]]) ⟨st.length, 0, 0⟩ (stRead st s)).2 msgs from rfl]
  have harr1 : (⟨st.length, 0, 0⟩ : GoSlice).arr < (st ++ [[]]).length := by
    dsimp only
    simp only [List.length_append, List.length_cons, List.length_nil]
    omega
  have hwf1 : sliceWF (st ++ [[]]) ⟨st.length, 0, 0⟩ := by
    show 0 + 0 ≤ (stGet (st ++ [[]]) st.length).length
    rw [stGet_append_self]
    simp
  have h1 := goAppend_spec (st ++ [[]]) ⟨st.length, 0, 0⟩ (stRead st s) harr1 hwf1
  have h2 := goAppend_spec (goAppend (st ++ [[]]) ⟨st.length, 0, 0⟩ (stRead st s)).1
    (goAppend (st ++ [[]]) ⟨st.length, 0, 0⟩ (stRead st s)).2 msgs h1.2.2 h1.2.1
  refine ⟨?_, h2.2.1, h2.2.2⟩
  rw [h2.1, h1.1]
  have hnil : stRead (st ++ [[]]) ⟨st.length, 0, 0⟩ = [] := by
    show ((stGet (st ++ [[]]) st.length).drop 0).take 0 = []
    rw [stGet_append_self]
    rfl
  rw [hnil]
  simp

/-- C3 counterexample: a successful send with zero caller-supplied new
messages extends the conversation by exactly one entry (the assistant
reply), not by exactly two as the claim states for every number of new
messages including zero. -/
theorem send_zero_new_messages_extends_by_one :
    stRead (sendModel [[UserMessage "hi"]] ⟨0, 0, 1⟩ ⟨0, 0, 0, 0, 0⟩ []
        (Except.ok (Except.ok ⟨AssistantMessage "ok", "stop", ⟨1, 2, 0, 0, 0⟩⟩))).1
      (sendModel [[UserMessage "hi"]] ⟨0, 0, 1⟩ ⟨0, 0, 0, 0, 0⟩ []
        (Except.ok (Except.ok ⟨AssistantMessage "ok", "stop", ⟨1, 2, 0, 0, 0⟩⟩))).2.1 =
      [UserMessage "hi", AssistantMessage "ok"] ∧
    ([UserMessage "hi", AssistantMessage "ok"] : List Message).length ≠
      (stRead [[UserMessage "hi"]] ⟨0, 0, 1⟩).length + 2 := by
  exact ⟨rfl, by decide⟩

/-- C3 amended: a successful Send returns a conversation whose message list
is the input list extended by the caller-supplied new messages in order
followed by exactly one assistant reply — that is, by newMessages.length + 1
entries, which is exactly two precisely when one new message is supplied —
together with the accumulated usage and the turn result. -/
theorem send_success_appends_request_then_reply (st : Store) (s : GoSlice) (u : Usage)
    (newMsgs : List Message) (resp : Response) :
    stRead (sendModel st s u newMsgs (Except.ok (Except.ok resp))).1
        (sendModel st s u newMsgs (Except.ok (Except.ok resp))).2.1 =
      stRead st s ++ newMsgs ++ [resp.message] ∧
    (sendModel st s u newMsgs (Except.ok (Except.ok resp))).2.2.1 = u.add resp.usage ∧
    (sendModel st s u newMsgs (Except.ok (Except.ok resp))).2.2.2 = Except.ok resp := by
  have hc := sendCopy_spec st s newMsgs
  have h2 := goAppend_spec (sendCopy st s newMsgs).1 (sendCopy st s newMsgs).2
    [resp.message] hc.2.2 hc.2.1
  refine ⟨?_, rfl, rfl⟩
  show stRead (goAppend (sendCopy st s newMsgs).1 (sendCopy st s newMsgs).2
      [resp.message]).1
    (goAppend (sendCopy st s newMsgs).1 (sendCopy st s newMsgs).2 [resp.message]).2 =
    stRead st s ++ newMsgs ++ [resp.message]
  rw [h2.1, hc.1]

/-- C2 counterexample: a Send whose transport fails returns a conversation
that already contains the caller-supplied new message, so the error path
does not return the pre-call snapshot unchanged. -/
theorem send_error_path_commits_request_messages :
    stRead (sendModel [[UserMessage "hi"]] ⟨0, 0, 1⟩ ⟨0, 0, 0, 0, 0⟩ [UserMessage "next"]
        (Except.error ⟨none, "boom"⟩)).1
      (sendModel [[UserMessage "hi"]] ⟨0, 0, 1⟩ ⟨0, 0, 0, 0, 0⟩ [UserMessage "next"]
        (Except.error ⟨none, "boom"⟩)).2.1 = [UserMessage "hi", UserMessage "next"] ∧
    stRead [[UserMessage "hi"]] ⟨0, 0, 1⟩ = [UserMessage "hi"] ∧
    ([UserMessage "hi", UserMessage "next"] : List Message) ≠ [UserMessage "hi"] := by
  refine ⟨rfl, rfl, fun h => ?_⟩
  have hlen := congrArg List.length h
  simp at hlen

/-- C2 amended: on a failed Send — transport failure or reply-parse failure —
the returned conversation is the pre-call snapshot with the caller-supplied
new messages appended (no assistant message), the usage is returned
unchanged (no accumulation), and the error is the classified transport error
or the raw parse error respectively. -/
theorem send_failure_keeps_usage_appends_request (st : Store) (s : GoSlice) (u : Usage)
    (newMsgs : List Message) :
    (∀ e : BedrockErr,
      stRead (sendModel st s u newMsgs (Except.error e)).1
          (sendModel st s u newMsgs (Except.error e)).2.1 = stRead st s ++ newMsgs ∧
      (sendModel st s u newMsgs (Except.error e)).2.2.1 = u ∧
      (sendModel st s u newMsgs (Except.error e)).2.2.2 =
        Except.error (SendErr.classified (classifyBedrockError e))) ∧
    (∀ raw : String,
      stRead (sendModel st s u newMsgs (Except.ok (Except.error raw))).1
          (sendModel st s u newMsgs (Except.ok (Except.error raw))).2.1 =
        stRead st s ++ newMsgs ∧
      (sendModel st s u newMsgs (Except.ok (Except.error raw))).2.2.1 = u ∧
      (sendModel st s u newMsgs (Except.ok (Except.error raw))).2.2.2 =
        Except.error (SendErr.parse raw)) := by
  have hc := sendCopy_spec st s newMsgs
  exact ⟨fun e => ⟨hc.1, rfl, rfl⟩, fun raw => ⟨hc.1, rfl, rfl⟩⟩
